import Mathlib

/-!
Verification of the hash-chained append-only log ("blockchain") and its
confidence-scoring / querying companions, as implemented in
`grace-cli.py` and `integrated_nlp_blockchain_system.py`.

The embedding is shallow: each Python class method becomes a Lean
function over explicit state.  External runtime facilities that the
repository merely calls (hashlib.sha256, datetime.now, the filesystem,
the str()/json.dumps renderings of mappings, float arithmetic) are not
code of the repository; following the specification they are modelled as
parameters or schematic executable stand-ins, each marked in its doc
comment.  Machine floats are modelled as exact rationals; every float
the claims mention is an exact decimal, so no rounding behaviour is
observable in any statement below.
-/

namespace GenAI

/-! ## Payload values

Python passes payloads around as `Dict` objects whose leaves here are
strings and numbers (the confidence scores).  `PyVal` is the value
domain, `PyEntries` an insertion-ordered key/value list (Python dicts
preserve insertion order). -/

mutual

inductive PyVal : Type where
  | str (s : String) : PyVal
  | num (q : ℚ) : PyVal
  | dict (entries : PyEntries) : PyVal
  deriving DecidableEq

inductive PyEntries : Type where
  | nil : PyEntries
  | cons (key : String) (value : PyVal) (rest : PyEntries) : PyEntries
  deriving DecidableEq

end

/-- A single-quote character, used by the Python `str()` rendering of
dictionaries. -/
def sq : String := String.singleton (Char.ofNat 39)

/-- Digit characters of a natural number, most significant first.
Written with explicit fuel so that it is structurally recursive. -/
def natCharsGo : ℕ → ℕ → List Char
  | 0, _ => []
  | fuel + 1, n =>
    if n < 10 then [Char.ofNat (48 + n)]
    else natCharsGo fuel (n / 10) ++ [Char.ofNat (48 + n % 10)]

/-- Decimal rendering of a natural number. -/
def natStr (n : ℕ) : String := String.mk (natCharsGo (n + 1) n)

/-- Decimal rendering of an integer. -/
def intStr (i : ℤ) : String :=
  if i < 0 then "-" ++ natStr i.natAbs else natStr i.natAbs

/-- Modelled from the spec: the textual rendering of a numeric score by
the Python runtime (external to the repository).  The spec only requires
a stable, deterministic serialization; the rendering below (numerator,
and denominator when it is not 1) is one such. -/
def ratStr (q : ℚ) : String :=
  if q.den = 1 then intStr q.num else intStr q.num ++ "/" ++ natStr q.den

mutual

/-- Modelled from the spec: the Python `str()` rendering of a payload
mapping (external runtime behaviour), used by `calculate_hash` through
the f-string `f"...{self.data}..."` and by the `integrated` variant of
`query_knowledge`.  Insertion-ordered keys, single-quoted strings,
`", "` separators — the stable key order the spec requires. -/
def pyStr : PyVal → String
  | .str s => sq ++ s ++ sq
  | .num q => ratStr q
  | .dict es => "\x7b" ++ pyStrEntries es ++ "\x7d"

/-- Renders the entries of a dictionary for `pyStr`. -/
def pyStrEntries : PyEntries → String
  | .nil => ""
  | .cons k v .nil => sq ++ k ++ sq ++ ": " ++ pyStr v
  | .cons k v (.cons k2 v2 rest) =>
      sq ++ k ++ sq ++ ": " ++ pyStr v ++ ", " ++ pyStrEntries (.cons k2 v2 rest)

end

mutual

/-- Modelled from the spec: the `json.dumps` rendering of a payload
mapping (external library), used by the `grace-cli` variant of
`query_knowledge`.  Insertion-ordered keys, double-quoted strings,
`", "` and `": "` separators (the json.dumps defaults). -/
def jsonDumps : PyVal → String
  | .str s => "\"" ++ s ++ "\""
  | .num q => ratStr q
  | .dict es => "\x7b" ++ jsonEntries es ++ "\x7d"

/-- Renders the entries of a dictionary for `jsonDumps`. -/
def jsonEntries : PyEntries → String
  | .nil => ""
  | .cons k v .nil => "\"" ++ k ++ "\"" ++ ": " ++ jsonDumps v
  | .cons k v (.cons k2 v2 rest) =>
      "\"" ++ k ++ "\"" ++ ": " ++ jsonDumps v ++ ", " ++ jsonEntries (.cons k2 v2 rest)

end

/-! ## Block and Blockchain (`grace-cli.py` lines 22-74)

`hashlib.sha256(...).hexdigest()` is an external library call; following
the spec (a "stable, collision-resistant hash function") it is modelled
as a function parameter `H : String → String`, so every theorem below
holds for the real digest in particular. -/

/-- One record of the ledger (`Block.__init__`, lines 23-28): the four
stored fields plus the self-hash computed at construction. -/
structure Block where
  index : ℕ
  timestamp : String
  data : PyVal
  previous_hash : String
  hash : String
  deriving DecidableEq

/-- `Block.calculate_hash` (lines 30-32): the digest of the f-string
`f"{index}{timestamp}{data}{previous_hash}"`. -/
def calculate_hash (H : String → String) (index : ℕ) (timestamp : String)
    (data : PyVal) (previous_hash : String) : String :=
  H (natStr index ++ timestamp ++ pyStr data ++ previous_hash)

/-- `Block.__init__` (lines 23-28): stores the four fields and computes
`self.hash = self.calculate_hash()`. -/
def mkBlock (H : String → String) (index : ℕ) (timestamp : String)
    (data : PyVal) (previous_hash : String) : Block :=
  { index := index, timestamp := timestamp, data := data,
    previous_hash := previous_hash,
    hash := calculate_hash H index timestamp data previous_hash }

/-- The persisted form of a record (`Block.to_dict`, lines 34-41): all
five fields, including the stored hash. -/
structure StoredBlock where
  index : ℕ
  timestamp : String
  data : PyVal
  previous_hash : String
  hash : String
  deriving DecidableEq

/-- `Block.to_dict` (lines 34-41). -/
def to_dict (b : Block) : StoredBlock :=
  { index := b.index, timestamp := b.timestamp, data := b.data,
    previous_hash := b.previous_hash, hash := b.hash }

/-- The genesis payload literal `{"data": "Genesis Block"}` (line 51). -/
def genesisPayload : PyVal := .dict (.cons "data" (.str "Genesis Block") .nil)

/-- `Blockchain.create_genesis_block` (lines 50-51); `datetime.now()` is
external, so the capture time is a parameter. -/
def create_genesis_block (H : String → String) (now : String) : Block :=
  mkBlock H 0 now genesisPayload "0"

/-- `Blockchain.get_latest_block` (lines 53-54): `chain[-1]`, which in
Python raises on an empty list, hence `Option`. -/
def get_latest_block (chain : List Block) : Option Block :=
  chain.getLast?

/-- `Blockchain.add_block` (lines 56-62): a new block with
`index = len(chain)`, the given capture time, and the previous hash of
the latest block, appended at the end.  (The `save_chain` call writes
the same chain to storage and is modelled by `save_chain` below.) -/
def add_block (H : String → String) (timestamp : String)
    (chain : List Block) (data : PyVal) : Option (List Block) :=
  match get_latest_block chain with
  | none => none
  | some latest => some (chain ++ [mkBlock H chain.length timestamp data latest.hash])

/-- `Blockchain.save_chain` (lines 64-67): persists every block through
`to_dict`, in order. -/
def save_chain (chain : List Block) : List StoredBlock :=
  chain.map to_dict

/-- `Blockchain.load_chain` (lines 69-74): an absent file yields the
empty chain; otherwise every stored record is rebuilt through
`Block(b.index, b.timestamp, b.data, b.previous_hash)` — the stored
`hash` field is not passed, so the constructor recomputes it. -/
def load_chain (H : String → String) (storage : Option (List StoredBlock)) :
    List Block :=
  match storage with
  | none => []
  | some stored =>
      stored.map (fun b => mkBlock H b.index b.timestamp b.data b.previous_hash)

/-- `Blockchain.__init__` (lines 44-48): load the persisted chain; if it
is empty (file absent, or an empty array), create the genesis block and
persist it.  Returns the in-memory chain and the storage state after
the call. -/
def blockchain_init (H : String → String) (now : String)
    (storage : Option (List StoredBlock)) : List Block × Option (List StoredBlock) :=
  match load_chain H storage with
  | [] =>
      let c := [create_genesis_block H now]
      (c, some (save_chain c))
  | b :: rest => (b :: rest, storage)

/-- A freshly created ledger: `Blockchain.__init__` with no persisted
storage (lines 44-48). -/
def freshLedger (H : String → String) (now : String) : List Block :=
  (blockchain_init H now none).1

/-- Appends a list of payloads in order, each with its capture time,
through `add_block`. -/
def appendAll (H : String → String) :
    List Block → List (PyVal × String) → Option (List Block)
  | chain, [] => some chain
  | chain, (d, t) :: rest =>
      match add_block H t chain d with
      | none => none
      | some c2 => appendAll H c2 rest

/-- Whether a block stores the hash recomputed from its own four stored
fields. -/
def hashOkB (H : String → String) (b : Block) : Bool :=
  b.hash == calculate_hash H b.index b.timestamp b.data b.previous_hash

/-- Modelled from the spec: the repository defines no `verify()`
operation; following spec section 4.1, `verify` recomputes each stored
hash and checks the previous-hash linkage at every position, returning
false at the first mismatch. -/
def verifyFrom (H : String → String) : Block → List Block → Bool
  | _, [] => true
  | prev, b :: rest =>
      hashOkB H b && (b.previous_hash == prev.hash) && verifyFrom H b rest

/-- Modelled from the spec: the repository defines no `verify()`
operation; this is spec section 4.1 — hash match at every position,
previous-hash linkage at every non-genesis position. -/
def verify (H : String → String) : List Block → Bool
  | [] => true
  | b :: rest => hashOkB H b && verifyFrom H b rest

/-! ## Confidence scorer (`grace-cli.py` lines 148-165)

`extract_confidence_scores` calls `re.search` with the pattern
`Reliability: (0\.\d+).*?Performance: (0\.\d+).*?Context Coherence: (0\.\d+)`
under `re.DOTALL` only — the labels are matched case-sensitively.  The
search is modelled directly for this one fixed pattern: `re.search`
tries each start position left to right; at a viable start the first
group takes the maximal digit run, and each lazy gap `.*?` stops at the
nearest later occurrence of the next label that completes.  (Shrinking a
greedy digit run can never rescue a failed remainder here, because a
label never begins with a digit and the gaps match any character, so the
direct model below agrees with the backtracking engine.) -/

/-- Boolean list-prefix test (chars compared by equality). -/
def lpre : List Char → List Char → Bool
  | [], _ => true
  | _ :: _, [] => false
  | a :: as, b :: bs => a == b && lpre as bs

/-- Boolean substring test: some suffix of the haystack starts with the
needle.  Models the Python `in` operator on strings. -/
def hasSub (needle : List Char) : List Char → Bool
  | [] => lpre needle []
  | c :: cs => lpre needle (c :: cs) || hasSub needle cs

/-- The regex group `(0\.\d+)`: a literal `0.` followed by the maximal
nonempty digit run.  Returns the matched characters and the remainder. -/
def matchNum : List Char → Option (List Char × List Char)
  | '0' :: '.' :: rest =>
      match rest.takeWhile Char.isDigit with
      | [] => none
      | d :: ds => some ('0' :: '.' :: (d :: ds), rest.drop (d :: ds).length)
  | _ => none

/-- A lazy gap followed by a labelled group, `.*?LABEL(0\.\d+)`: the
nearest occurrence of the label that is followed by a number wins. -/
def findLabeled (label : List Char) : List Char → Option (List Char × List Char)
  | [] => none
  | c :: cs =>
      match (if lpre label (c :: cs) then matchNum ((c :: cs).drop label.length) else none) with
      | some r => some r
      | none => findLabeled label cs

/-- The literal label before the first group. -/
def relLabel : List Char := "Reliability: ".data

/-- The literal label before the second group. -/
def perfLabel : List Char := "Performance: ".data

/-- The literal label before the third group. -/
def ctxLabel : List Char := "Context Coherence: ".data

/-- One attempt of the full pattern at a fixed start position. -/
def tryAt (s : List Char) : Option (List Char × List Char × List Char) :=
  match (if lpre relLabel s then matchNum (s.drop relLabel.length) else none) with
  | none => none
  | some (r, rest1) =>
      match findLabeled perfLabel rest1 with
      | none => none
      | some (p, rest2) =>
          match findLabeled ctxLabel rest2 with
          | none => none
          | some (c, _) => some (r, p, c)

/-- `re.search` of the fixed pattern: the leftmost start position where
the whole pattern matches. -/
def searchScores : List Char → Option (List Char × List Char × List Char)
  | [] => none
  | c :: cs =>
      match tryAt (c :: cs) with
      | some t => some t
      | none => searchScores cs

/-- Numeric value of a digit run. -/
def digitsToNat (l : List Char) : ℕ :=
  l.foldl (fun n c => 10 * n + (c.toNat - 48)) 0

/-- Modelled from the spec: Python `float()` applied to a string the
pattern matched, which is always of the form `0.<digits>`; the value is
the exact decimal (machine floats abstracted to rationals). -/
def parseScore : List Char → ℚ
  | '0' :: '.' :: ds => (digitsToNat ds : ℚ) / ((10 : ℚ) ^ ds.length)
  | _ => 0

/-- Counts maximal nonempty runs of non-whitespace characters; the flag
records whether the previous character was inside a word. -/
def countWords : List Char → Bool → ℕ
  | [], _ => 0
  | c :: cs, inWord =>
      if c.isWhitespace then countWords cs false
      else (if inWord then 0 else 1) + countWords cs true

/-- Modelled from the spec: `len(text.split())` (external runtime
behaviour of str.split) — the number of whitespace-separated words. -/
def wordCount (text : String) : ℕ := countWords text.data false

/-- `calculate_confidence_scores` (lines 157-165): the fallback
heuristic — reliability `min(word_count / 1000, 0.95)`, performance
`0.8`, context coherence `0.7 + 0.2 * ('context' in text.lower())`. -/
def calculate_confidence_scores (text : String) : ℚ × ℚ × ℚ :=
  let word_count := wordCount text
  let reliability : ℚ := min ((word_count : ℚ) / 1000) (95 / 100)
  let performance : ℚ := 8 / 10
  let context_coherence : ℚ :=
    7 / 10 + (2 / 10) *
      (if hasSub "context".data (text.data.map Char.toLower) then 1 else 0)
  (reliability, performance, context_coherence)

/-- `extract_confidence_scores` (lines 148-155): parse the three groups
of the explicit block if the pattern matches, otherwise fall back to the
heuristic. -/
def extract_confidence_scores (text : String) : ℚ × ℚ × ℚ :=
  match searchScores text.data with
  | some (r, p, c) => (parseScore r, parseScore p, parseScore c)
  | none => calculate_confidence_scores text

/-- Written from the words of spec section 4.2 (the `estimate`
contract), to be compared with `calculate_confidence_scores`:
reliability `min(wordCount/1000, 0.95)`, performance `0.8`, context
coherence `0.9` when the word "context" appears case-insensitively and
`0.7` otherwise. -/
def spec_estimate (text : String) : ℚ × ℚ × ℚ :=
  (min ((wordCount text : ℚ) / 1000) (95 / 100), 8 / 10,
    if hasSub "context".data (text.data.map Char.toLower) then 9 / 10 else 7 / 10)

/-! ## Knowledge query (`grace-cli.py` lines 108-113 and
`integrated_nlp_blockchain_system.py` lines 88-93)

The two variants differ only in the payload serialization handed to the
substring test: `json.dumps(block.data)` in `grace-cli`, and
`str(block.data)` in `integrated`; the serializer is therefore a
parameter `ser`, instantiated by `jsonDumps` respectively `pyStr`. -/

/-- The case-insensitive substring test
`query.lower() in ser(data).lower()`. -/
def substrCI (query s : String) : Bool :=
  hasSub (query.data.map Char.toLower) (s.data.map Char.toLower)

/-- The accumulating loop body of `query_knowledge`: matches are
appended to `results` in iteration order. -/
def queryGo (ser : PyVal → String) (query : String) :
    List Block → List PyVal → List PyVal
  | [], results => results
  | b :: rest, results =>
      queryGo ser query rest
        (if substrCI query (ser b.data) then results ++ [b.data] else results)

/-- `NLPBlockchain.query_knowledge`: iterates `self.chain[1:]` (genesis
skipped) and collects the payloads whose serialized form contains the
query case-insensitively, in chain order. -/
def query_knowledge (ser : PyVal → String) (chain : List Block)
    (query : String) : List PyVal :=
  queryGo ser query (chain.drop 1) []

/-! ## Conversation recorder (`grace-cli.py` lines 167-183) -/

/-- `GenAIConfidenceAssessment.to_dict` (lines 85-91): the three scores
plus their arithmetic mean. -/
def assessment_to_dict (r p c : ℚ) : PyVal :=
  .dict (.cons "reliability" (.num r)
    (.cons "performance" (.num p)
      (.cons "context_coherence" (.num c)
        (.cons "overall_confidence" (.num ((r + p + c) / 3)) .nil))))

/-- The portion of the text before the first case-insensitive occurrence
of the marker (the `[0]` of `re.split(marker, text, flags=IGNORECASE)`);
the marker is given lowercased. -/
def beforeMarkerCI (marker : List Char) : List Char → List Char
  | [] => []
  | c :: cs =>
      if lpre marker ((c :: cs).map Char.toLower) then []
      else c :: beforeMarkerCI marker cs

/-- Leading and trailing whitespace removed (Python `str.strip()`). -/
def stripWS (l : List Char) : List Char :=
  ((l.dropWhile Char.isWhitespace).reverse.dropWhile Char.isWhitespace).reverse

/-- Every newline replaced by the two characters backslash-n
(`content.replace("\n", "\\n")`, line 178). -/
def replaceNL : List Char → List Char
  | [] => []
  | c :: cs => if c = '\n' then '\\' :: 'n' :: replaceNL cs else c :: replaceNL cs

/-- `process_grace_response` (lines 167-183).  If the reply contains the
literal uppercase marker `EXIT` it returns the sentinel `("exit",
context)` at once, leaving the chain untouched.  Otherwise it scores the
reply, splits off the content before the confidence-assessment header,
escapes its newlines, and appends the payload through `add_block`
(`add_nlp_response`, lines 100-106), returning the summary message and
the updated running context. -/
def process_grace_response (H : String → String) (timestamp : String)
    (chain : List Block) (grace_response context : String) :
    Option ((String × String) × List Block) :=
  if hasSub "EXIT".data grace_response.data then
    some (("exit", context), chain)
  else
    let (r, p, c) := extract_confidence_scores grace_response
    let content : String :=
      String.mk (stripWS (beforeMarkerCI "genai confidence assessment:".data
        grace_response.data))
    let formatted_content : String := String.mk (replaceNL content.data)
    let data : PyVal :=
      .dict (.cons "response_type" (.str "Conversation")
        (.cons "content" (.str formatted_content)
          (.cons "assessment" (assessment_to_dict r p c) .nil)))
    match add_block H timestamp chain data with
    | none => none
    | some c2 =>
        some (("Response added to the blockchain. Overall confidence: "
            ++ ratStr ((r + p + c) / 3),
          context ++ "\nAdded response: " ++ String.mk (content.data.take 100)
            ++ "..."), c2)

/-! ## Structural invariant of a chain, and concrete values used to
exercise the theorems on explicit inputs. -/

/-- The previous-hash linkage between two consecutive blocks. -/
def linkRel (a b : Block) : Prop := b.previous_hash = a.hash

/-- The structural well-formedness a chain acquires by construction:
indices are `0..len-1` in order, every stored hash is the recomputation
over the own four fields, and consecutive blocks are hash-linked. -/
def StructOk (H : String → String) (chain : List Block) : Prop :=
  chain.map Block.index = List.range chain.length ∧
  (∀ b ∈ chain, b.hash = calculate_hash H b.index b.timestamp b.data b.previous_hash) ∧
  List.Chain' linkRel chain

/-- A concrete injective stand-in digest used on explicit inputs. -/
def H0 : String → String := fun s => "#" ++ s

/-- A concrete payload used on explicit inputs. -/
def wPayload : PyVal := .str "hello world"

/-- The genesis block of the concrete chain below. -/
def wGenesis : Block := create_genesis_block H0 "g0"

/-- A concrete two-block chain: genesis plus one appended payload. -/
def wChain2 : List Block := [wGenesis, mkBlock H0 1 "t1" wPayload wGenesis.hash]

/-- A concrete one-record persisted file whose stored hash field is
garbage. -/
def wStored : List StoredBlock :=
  [{ index := 0, timestamp := "t0", data := wPayload,
     previous_hash := "0", hash := "junkhash" }]

/-- A concrete two-record persisted file whose second record is not
linked to the first: it fails chain validation. -/
def wBadStored : List StoredBlock :=
  [{ index := 0, timestamp := "t0", data := genesisPayload,
     previous_hash := "0", hash := "h0" },
   { index := 1, timestamp := "t1", data := wPayload,
     previous_hash := "junk", hash := "h1" }]

/-- A concrete 500-word text (the word `a`, 500 times). -/
def wText500 : String := String.mk (List.flatten (List.replicate 500 ['a', ' ']))

/-- The explicit-block example text of the spec with the labels
lowercased: the pattern does not match it. -/
def cText1 : String :=
  "reliability: 0.9 blah performance: 0.8 blah context coherence: 0.7"

/-- An explicit block whose first score is not of the form `0.<digits>`:
the pattern does not match it. -/
def cText2 : String :=
  "Reliability: 1.0 a Performance: 0.5 a Context Coherence: 0.5"

end GenAI

namespace GenAI

/-! ## Helper lemmas about the chain operations -/

/-- A freshly created ledger is exactly the genesis block. -/
theorem freshLedger_eq (H : String → String) (g : String) :
    freshLedger H g = [create_genesis_block H g] := rfl

/-- The fresh ledger satisfies the structural invariant. -/
theorem structOk_fresh (H : String → String) (g : String) :
    StructOk H (freshLedger H g) := by
  refine ⟨rfl, ?_, ?_⟩
  · intro b hb
    rw [freshLedger_eq] at hb
    rcases List.mem_singleton.mp hb with rfl
    rfl
  · rw [freshLedger_eq]
    exact List.chain'_singleton _

/-- On a nonempty chain, `add_block` appends exactly one block carrying
the next index and the hash of the last block. -/
theorem add_block_eq (H : String → String) (t : String) (chain : List Block)
    (d : PyVal) (hne : chain ≠ []) :
    add_block H t chain d =
      some (chain ++ [mkBlock H chain.length t d ((chain.getLast hne).hash)]) := by
  unfold add_block get_latest_block
  rw [List.getLast?_eq_getLast chain hne]

/-- Appending the correctly linked next block preserves the structural
invariant. -/
theorem structOk_snoc (H : String → String) (chain : List Block) (t : String)
    (d : PyVal) (hne : chain ≠ []) (hok : StructOk H chain) :
    StructOk H (chain ++ [mkBlock H chain.length t d ((chain.getLast hne).hash)]) := by
  obtain ⟨hidx, hhash, hchain⟩ := hok
  refine ⟨?_, ?_, ?_⟩
  · rw [List.map_append, hidx, List.length_append]
    simp [mkBlock, List.range_succ]
  · intro b hb
    rcases List.mem_append.mp hb with h | h
    · exact hhash b h
    · rcases List.mem_singleton.mp h with rfl
      rfl
  · rw [List.chain'_append]
    refine ⟨hchain, List.chain'_singleton _, ?_⟩
    intro x hx y hy
    rw [List.getLast?_eq_getLast chain hne, Option.mem_some_iff] at hx
    simp only [List.head?_cons, Option.mem_some_iff] at hy
    subst hx; subst hy
    rfl

/-- `appendAll` on a nonempty structurally sound chain always succeeds,
adds one block per payload, preserves the invariant and the head. -/
theorem appendAll_ok (H : String → String) (items : List (PyVal × String)) :
    ∀ chain : List Block, chain ≠ [] → StructOk H chain →
      ∃ c2, appendAll H chain items = some c2 ∧
        c2.length = chain.length + items.length ∧ StructOk H c2 ∧
        c2.head? = chain.head? ∧ c2 ≠ [] := by
  induction items with
  | nil =>
      intro chain hne hok
      exact ⟨chain, rfl, by simp [appendAll], hok, rfl, hne⟩
  | cons dt rest ih =>
      intro chain hne hok
      obtain ⟨d, t⟩ := dt
      have hab := add_block_eq H t chain d hne
      have hok2 := structOk_snoc H chain t d hne hok
      have hne2 : chain ++ [mkBlock H chain.length t d ((chain.getLast hne).hash)] ≠ [] := by
        simp
      obtain ⟨c2, h1, h2, h3, h4, h5⟩ := ih _ hne2 hok2
      refine ⟨c2, ?_, ?_, h3, ?_, h5⟩
      · show appendAll H chain ((d, t) :: rest) = some c2
        rw [appendAll, hab]
        exact h1
      · rw [h2, List.length_append]
        simp
        omega
      · rw [h4]
        cases chain with
        | nil => exact absurd rfl hne
        | cons a as => rfl

/-- Positional reading of the index conjunct of `StructOk`. -/
theorem index_of_map_range (c : List Block)
    (h : c.map Block.index = List.range c.length) (i : ℕ) (hi : i < c.length) :
    (c.get ⟨i, hi⟩).index = i := by
  have h7 := congrArg (fun l => l[i]?) h
  simp only [List.getElem?_map] at h7
  rw [List.getElem?_range hi] at h7
  rw [List.getElem?_eq_getElem hi] at h7
  simpa [List.get_eq_getElem] using Option.some.inj h7

/-- C1: after any sequence of appends on a fresh ledger, every
non-genesis record at position `i` stores as previous hash the self-hash
of the record at position `i - 1`, and stores as self-hash the digest
recomputed over its own four fields. -/
theorem hash_chain_invariant (H : String → String) (g : String)
    (items : List (PyVal × String)) (chain : List Block)
    (happ : appendAll H (freshLedger H g) items = some chain)
    (i : ℕ) (hi : i < chain.length) (hpos : 0 < i) :
    (chain.get ⟨i, hi⟩).previous_hash = (chain.get ⟨i - 1, by omega⟩).hash ∧
    (chain.get ⟨i, hi⟩).hash =
      calculate_hash H (chain.get ⟨i, hi⟩).index (chain.get ⟨i, hi⟩).timestamp
        (chain.get ⟨i, hi⟩).data (chain.get ⟨i, hi⟩).previous_hash := by
  obtain ⟨c2, h1, h2, h3, h4, h5⟩ :=
    appendAll_ok H items (freshLedger H g) (by rw [freshLedger_eq]; simp)
      (structOk_fresh H g)
  obtain rfl : chain = c2 := Option.some.inj (happ.symm.trans h1)
  obtain ⟨hidx, hhash, hchain⟩ := h3
  constructor
  · have hstep := (List.chain'_iff_get.mp hchain) (i - 1) (by omega)
    have hfin : (⟨i - 1 + 1, by omega⟩ : Fin chain.length) = ⟨i, hi⟩ := by
      simp only [Fin.mk.injEq]
      omega
    rw [hfin] at hstep
    exact hstep
  · exact hhash _ (List.get_mem chain i hi)

/-- Exercises C1 on the concrete two-block chain. -/
theorem hash_chain_invariant_witness :
    (wChain2.get ⟨1, by decide⟩).previous_hash = (wChain2.get ⟨0, by decide⟩).hash ∧
    (wChain2.get ⟨1, by decide⟩).hash =
      calculate_hash H0 (wChain2.get ⟨1, by decide⟩).index
        (wChain2.get ⟨1, by decide⟩).timestamp (wChain2.get ⟨1, by decide⟩).data
        (wChain2.get ⟨1, by decide⟩).previous_hash :=
  hash_chain_invariant H0 "g0" [(wPayload, "t1")] wChain2 rfl 1 (by decide) (by decide)

/-- C3: appending `N` payloads to a fresh ledger yields a chain of
length `N + 1` whose record at every position `i` carries index `i`,
with the genesis record at the head. -/
theorem append_length_and_indices (H : String → String) (g : String)
    (items : List (PyVal × String)) :
    ∃ chain, appendAll H (freshLedger H g) items = some chain ∧
      chain.length = items.length + 1 ∧
      (∀ i (hi : i < chain.length), (chain.get ⟨i, hi⟩).index = i) ∧
      chain.head? = some (create_genesis_block H g) := by
  obtain ⟨c2, h1, h2, h3, h4, h5⟩ :=
    appendAll_ok H items (freshLedger H g) (by rw [freshLedger_eq]; simp)
      (structOk_fresh H g)
  refine ⟨c2, h1, ?_, ?_, ?_⟩
  · rw [h2, freshLedger_eq]
    simp
    omega
  · exact index_of_map_range c2 h3.1
  · rw [h4, freshLedger_eq]
    rfl

/-- Exercises C3 on a concrete two-payload append. -/
theorem append_length_and_indices_witness :
    appendAll H0 (freshLedger H0 "g0") [(wPayload, "t1")] = some wChain2 ∧
    wChain2.length = 2 ∧ (wChain2.get ⟨1, by decide⟩).index = 1 := by
  obtain ⟨c, hc, hlen, hidx, hhead⟩ :=
    append_length_and_indices H0 "g0" [(wPayload, "t1")]
  have hc2 : appendAll H0 (freshLedger H0 "g0") [(wPayload, "t1")] = some wChain2 := rfl
  obtain rfl : c = wChain2 := Option.some.inj ((hc.symm).trans hc2)
  exact ⟨hc2, hlen, hidx 1 (by decide)⟩

/-- `verifyFrom` checks exactly: every later block hash-checks, and the
linkage holds from the previous block onwards. -/
theorem verifyFrom_iff (H : String → String) (p : Block) (l : List Block) :
    verifyFrom H p l = true ↔
      (∀ b ∈ l, hashOkB H b = true) ∧ List.Chain' linkRel (p :: l) := by
  induction l generalizing p with
  | nil => simp [verifyFrom]
  | cons b rest ih =>
      simp only [verifyFrom, Bool.and_eq_true, ih b, List.forall_mem_cons,
        List.chain'_cons, beq_iff_eq]
      constructor
      · rintro ⟨⟨hb, hlink⟩, hrest, hchain⟩
        exact ⟨⟨hb, hrest⟩, hlink, hchain⟩
      · rintro ⟨⟨hb, hrest⟩, hlink, hchain⟩
        exact ⟨⟨hb, hlink⟩, hrest, hchain⟩

/-- `verify` checks exactly: every block hash-checks and the chain is
hash-linked. -/
theorem verify_iff_structural (H : String → String) (chain : List Block) :
    verify H chain = true ↔
      (∀ b ∈ chain, hashOkB H b = true) ∧ List.Chain' linkRel chain := by
  cases chain with
  | nil => simp [verify]
  | cons b rest =>
      simp only [verify, Bool.and_eq_true, verifyFrom_iff, List.forall_mem_cons]
      constructor
      · rintro ⟨hb, hrest, hchain⟩
        exact ⟨⟨hb, hrest⟩, hchain⟩
      · rintro ⟨⟨hb, hrest⟩, hchain⟩
        exact ⟨hb, hrest, hchain⟩

/-- C2: on every non-empty chain, `verify` returns true exactly when
every record stores the hash recomputed from its own stored fields and
every non-first record stores as previous hash the self-hash of its
predecessor. -/
theorem verify_iff (H : String → String) (chain : List Block)
    (_hne : chain ≠ []) :
    verify H chain = true ↔
      (∀ i (hi : i < chain.length), (chain.get ⟨i, hi⟩).hash =
        calculate_hash H (chain.get ⟨i, hi⟩).index (chain.get ⟨i, hi⟩).timestamp
          (chain.get ⟨i, hi⟩).data (chain.get ⟨i, hi⟩).previous_hash) ∧
      (∀ i (hi : i < chain.length), 0 < i →
        (chain.get ⟨i, hi⟩).previous_hash = (chain.get ⟨i - 1, by omega⟩).hash) := by
  rw [verify_iff_structural]
  constructor
  · rintro ⟨hhash, hchain⟩
    constructor
    · intro i hi
      have := hhash _ (List.get_mem chain i hi)
      simpa [hashOkB, beq_iff_eq] using this
    · intro i hi hpos
      have hstep := (List.chain'_iff_get.mp hchain) (i - 1) (by omega)
      have hfin : (⟨i - 1 + 1, by omega⟩ : Fin chain.length) = ⟨i, hi⟩ := by
        simp only [Fin.mk.injEq]
        omega
      rw [hfin] at hstep
      exact hstep
  · rintro ⟨hhash, hlink⟩
    constructor
    · intro b hb
      obtain ⟨i, rfl⟩ := List.mem_iff_get.mp hb
      simpa [hashOkB, beq_iff_eq] using hhash i.1 i.2
    · rw [List.chain'_iff_get]
      intro i hilen
      have hstep := hlink (i + 1) (by omega) (by omega)
      have hfin : (⟨i + 1 - 1, by omega⟩ : Fin chain.length) = ⟨i, by omega⟩ := by
        simp only [Fin.mk.injEq]
        omega
      rw [hfin] at hstep
      exact hstep

/-- Exercises C2 on the concrete two-block chain. -/
theorem verify_iff_witness : verify H0 wChain2 = true :=
  (verify_iff H0 wChain2 (by decide)).mpr ⟨by decide, by decide⟩

/-- C5: persisting any constructible chain (every stored hash is the
recomputation over its own fields, which the Block constructor
guarantees) and loading it back reproduces the chain, every field
equal. -/
theorem save_load_roundtrip (H : String → String) (chain : List Block)
    (h : ∀ b ∈ chain, b.hash =
      calculate_hash H b.index b.timestamp b.data b.previous_hash) :
    load_chain H (some (save_chain chain)) = chain := by
  induction chain with
  | nil => rfl
  | cons b rest ih =>
      simp only [load_chain, save_chain, List.map_cons, List.map_map] at ih ⊢
      have hb : mkBlock H b.index b.timestamp b.data b.previous_hash = b := by
        have := h b (List.mem_cons_self b rest)
        cases b
        simp only [mkBlock]
        simp_all
      simp only [to_dict, Function.comp]
      rw [hb]
      have hrest := ih (fun x hx => h x (List.mem_cons_of_mem b hx))
      simpa using hrest

/-- Exercises C5 on the concrete two-block chain. -/
theorem save_load_roundtrip_witness :
    load_chain H0 (some (save_chain wChain2)) = wChain2 :=
  save_load_roundtrip H0 wChain2 (by decide)

/-- C10: loading rebuilds each record from the four stored fields only —
the loaded chain equals the stored records mapped through the
constructor, every loaded record hash-checks against its own loaded
fields, and overwriting the stored hash field arbitrarily does not
change the loaded chain. -/
theorem load_recomputes_hashes (H : String → String)
    (stored : List StoredBlock) :
    load_chain H (some stored) =
      stored.map (fun s => mkBlock H s.index s.timestamp s.data s.previous_hash) ∧
    (∀ b ∈ load_chain H (some stored),
      b.hash = calculate_hash H b.index b.timestamp b.data b.previous_hash) ∧
    (∀ g : StoredBlock → String,
      load_chain H (some (stored.map (fun s => { s with hash := g s }))) =
        load_chain H (some stored)) := by
  refine ⟨rfl, ?_, ?_⟩
  · intro b hb
    simp only [load_chain, List.mem_map] at hb
    obtain ⟨s, _, rfl⟩ := hb
    rfl
  · intro g
    simp [load_chain, List.map_map]

/-- Exercises C10 on a concrete stored record with a garbage hash
field. -/
theorem load_recomputes_hashes_witness :
    (mkBlock H0 0 "t0" wPayload "0").hash =
      calculate_hash H0 0 "t0" wPayload "0" ∧
    load_chain H0 (some (wStored.map (fun s => { s with hash := "tampered" }))) =
      load_chain H0 (some wStored) :=
  ⟨(load_recomputes_hashes H0 wStored).2.1 _ (by decide),
   (load_recomputes_hashes H0 wStored).2.2 (fun _ => "tampered")⟩

/-- C4 counterexample: opening a storage whose persisted records fail
validation does not fail — it returns the corrupt two-record chain. -/
theorem open_accepts_corrupt_storage :
    (blockchain_init H0 "t" (some wBadStored)).1.length = 2 ∧
    verify H0 (blockchain_init H0 "t" (some wBadStored)).1 = false ∧
    (blockchain_init H0 "t" (some wBadStored)).2 = some wBadStored := by
  decide

/-- C4 as amended: opening with absent or empty storage creates and
persists the genesis record (fixed marker payload, previous hash "0");
opening with non-empty storage returns the loaded records with no
validation and leaves storage untouched. -/
theorem open_loads_without_validation (H : String → String) (now : String) :
    blockchain_init H now none =
      ([create_genesis_block H now], some (save_chain [create_genesis_block H now])) ∧
    blockchain_init H now (some []) =
      ([create_genesis_block H now], some (save_chain [create_genesis_block H now])) ∧
    (∀ stored : List StoredBlock, stored ≠ [] →
      blockchain_init H now (some stored) = (load_chain H (some stored), some stored)) ∧
    (create_genesis_block H now).previous_hash = "0" ∧
    (create_genesis_block H now).data = genesisPayload := by
  refine ⟨rfl, rfl, ?_, rfl, rfl⟩
  intro stored hne
  cases stored with
  | nil => exact absurd rfl hne
  | cons s rest => rfl

/-- Exercises the amended C4 on the concrete garbage-hash storage. -/
theorem open_loads_without_validation_witness :
    blockchain_init H0 "g0" (some wStored) = (load_chain H0 (some wStored), some wStored) :=
  (open_loads_without_validation H0 "g0").2.2.1 wStored (by decide)

/-- C9: a reply containing the literal uppercase marker EXIT makes the
recorder return the sentinel at once, with the context echoed and the
chain unchanged. -/
theorem exit_short_circuits (H : String → String) (t : String)
    (chain : List Block) (resp ctx : String)
    (h : hasSub "EXIT".data resp.data = true) :
    process_grace_response H t chain resp ctx = some (("exit", ctx), chain) := by
  simp [process_grace_response, h]

/-- Exercises C9 on a concrete farewell reply. -/
theorem exit_short_circuits_witness :
    process_grace_response H0 "t9" wChain2 "Fair winds. EXIT" "ctx" =
      some (("exit", "ctx"), wChain2) :=
  exit_short_circuits H0 "t9" wChain2 "Fair winds. EXIT" "ctx" (by decide)

/-- C7: the fallback heuristic computes exactly the estimate the spec
describes, and on a 500-word text without the word "context" it yields
`(0.5, 0.8, 0.7)`. -/
theorem fallback_estimate (text : String) :
    calculate_confidence_scores text = spec_estimate text ∧
    (wordCount text = 500 →
      hasSub "context".data (text.data.map Char.toLower) = false →
      calculate_confidence_scores text =
        ((1 : ℚ)/2, (4 : ℚ)/5, (7 : ℚ)/10)) := by
  constructor
  · simp only [calculate_confidence_scores, spec_estimate]
    cases hc : hasSub "context".data (text.data.map Char.toLower)
    · simp [hc]
    · simp [hc]
      norm_num
  · intro h1 h2
    simp only [calculate_confidence_scores, h1, h2]
    norm_num

set_option maxRecDepth 40000 in
/-- Exercises C7 on the concrete 500-word text. -/
theorem fallback_estimate_witness :
    wordCount wText500 = 500 ∧
    calculate_confidence_scores wText500 = ((1 : ℚ)/2, (4 : ℚ)/5, (7 : ℚ)/10) :=
  ⟨by decide, (fallback_estimate wText500).2 (by decide) (by decide)⟩

/-- The accumulator form of the query loop: matches are the in-order
filter of the iterated blocks, appended after the accumulator. -/
theorem queryGo_eq (ser : PyVal → String) (q : String) (l : List Block) :
    ∀ acc : List PyVal,
      queryGo ser q l acc =
        acc ++ (l.filter (fun b => substrCI q (ser b.data))).map Block.data := by
  induction l with
  | nil => intro acc; simp [queryGo]
  | cons b rest ih =>
      intro acc
      cases hb : substrCI q (ser b.data) <;>
        simp [queryGo, hb, ih, List.filter_cons]

/-- C8: `query_knowledge` returns exactly the payloads of the records
after position 0 whose serialized form contains the query
case-insensitively, in chain order; in particular the result is an
in-order sub-list of the non-genesis payloads, so the genesis record is
never returned. -/
theorem query_skips_genesis_and_filters (ser : PyVal → String)
    (chain : List Block) (q : String) :
    query_knowledge ser chain q =
      ((chain.drop 1).filter (fun b => substrCI q (ser b.data))).map Block.data ∧
    (query_knowledge ser chain q).Sublist ((chain.drop 1).map Block.data) := by
  have h := queryGo_eq ser q (chain.drop 1) []
  constructor
  · simpa [query_knowledge] using h
  · have h2 : query_knowledge ser chain q =
        ((chain.drop 1).filter (fun b => substrCI q (ser b.data))).map Block.data := by
      simpa [query_knowledge] using h
    rw [h2]
    exact List.Sublist.map _ (List.filter_sublist _)

/-! ## Lemmas about the modelled regex search -/

/-- A list is a prefix of itself followed by anything. -/
theorem lpre_append (l r : List Char) : lpre l (l ++ r) = true := by
  induction l with
  | nil => rfl
  | cons a as ih => simp [lpre, ih]

/-- A prefix test fails when the heads differ. -/
theorem lpre_ne_head (a b : Char) (as bs : List Char) (h : a ≠ b) :
    lpre (a :: as) (b :: bs) = false := by
  simp [lpre, h]

/-- A nonempty all-digit run followed by a non-digit is exactly what the
digit group consumes. -/
theorem takeWhile_digits (ds rest : List Char)
    (hds : ∀ c ∈ ds, c.isDigit = true)
    (hrest : ∀ c ∈ rest.head?, c.isDigit = false) :
    (ds ++ rest).takeWhile Char.isDigit = ds := by
  induction ds with
  | nil =>
      cases rest with
      | nil => rfl
      | cons c cs =>
          have := hrest c rfl
          simp [List.takeWhile_cons, this]
  | cons d ds ih =>
      have hd := hds d (List.mem_cons_self d ds)
      simp only [List.cons_append, List.takeWhile_cons, hd]
      simp [ih (fun c hc => hds c (List.mem_cons_of_mem d hc))]

/-- The number group on a well-delimited run: consumes `0.` and the
digits, leaves the rest. -/
theorem matchNum_eq (ds rest : List Char) (hne : ds ≠ [])
    (hds : ∀ c ∈ ds, c.isDigit = true)
    (hrest : ∀ c ∈ rest.head?, c.isDigit = false) :
    matchNum ('0' :: '.' :: (ds ++ rest)) = some ('0' :: '.' :: ds, rest) := by
  have htw := takeWhile_digits ds rest hds hrest
  cases ds with
  | nil => exact absurd rfl hne
  | cons d ds =>
      simp only [matchNum, htw]
      rw [List.drop_left]

/-- The labelled search passes over a stretch that nowhere contains the
label head character. -/
theorem findLabeled_through (hch : Char) (ltail mid rest : List Char)
    (hmid : hch ∉ mid) :
    findLabeled (hch :: ltail) (mid ++ rest) = findLabeled (hch :: ltail) rest := by
  induction mid with
  | nil => rfl
  | cons c cs ih =>
      have hc : hch ≠ c := fun h => hmid (h ▸ List.mem_cons_self c cs)
      have hlp : lpre (hch :: ltail) (c :: (cs ++ rest)) = false :=
        lpre_ne_head hch c ltail (cs ++ rest) hc
      show findLabeled (hch :: ltail) (c :: (cs ++ rest)) = _
      rw [findLabeled, hlp]
      simp only [Bool.false_eq_true, if_false]
      exact ih (fun h => hmid (List.mem_cons_of_mem c h))

/-- The labelled search succeeds at the label itself when a number
follows. -/
theorem findLabeled_found (label rest : List Char) (v : List Char × List Char)
    (hne : label ≠ []) (hm : matchNum rest = some v) :
    findLabeled label (label ++ rest) = some v := by
  cases label with
  | nil => exact absurd rfl hne
  | cons a as =>
      show findLabeled (a :: as) (a :: (as ++ rest)) = some v
      rw [findLabeled]
      have hlp : lpre (a :: as) (a :: (as ++ rest)) = true := lpre_append (a :: as) rest
      rw [hlp]
      simp only [if_true, List.length_cons, List.drop_succ_cons, List.drop_left, hm]

/-- The top-level search passes over a stretch that nowhere contains
the head character of the first label. -/
theorem searchScores_through (mid rest : List Char) (hmid : 'R' ∉ mid) :
    searchScores (mid ++ rest) = searchScores rest := by
  induction mid with
  | nil => rfl
  | cons c cs ih =>
      have hc : ('R' : Char) ≠ c := fun h => hmid (h ▸ List.mem_cons_self c cs)
      have hlp : lpre relLabel (c :: (cs ++ rest)) = false := by
        have hrel : relLabel = 'R' :: "eliability: ".data := rfl
        rw [hrel]
        exact lpre_ne_head _ _ _ _ hc
      show searchScores (c :: (cs ++ rest)) = _
      rw [searchScores]
      have htry : tryAt (c :: (cs ++ rest)) = none := by
        rw [tryAt, hlp]
        simp
      rw [htry]
      exact ih (fun h => hmid (List.mem_cons_of_mem c h))

/-- A non-digit head survives prepending a stretch with non-digit
head. -/
theorem head_nondigit_append (mid rest : List Char)
    (hmid : ∀ c ∈ mid.head?, c.isDigit = false)
    (hrest : ∀ c ∈ rest.head?, c.isDigit = false) :
    ∀ c ∈ (mid ++ rest).head?, c.isDigit = false := by
  cases mid with
  | nil => simpa using hrest
  | cons a as =>
      intro c hc
      simp only [List.cons_append, List.head?_cons, Option.mem_some_iff] at hc
      subst hc
      exact hmid _ rfl

/-- The stretch after the Performance label starts with `P`, not a
digit. -/
theorem head_perf_nondigit (R : List Char) :
    ∀ c ∈ (perfLabel ++ R).head?, c.isDigit = false := by
  intro c hc
  have h : perfLabel ++ R = 'P' :: ("erformance: ".data ++ R) := rfl
  rw [h] at hc
  simp only [List.head?_cons, Option.mem_some_iff] at hc
  subst hc
  decide

/-- The stretch after the Context Coherence label starts with `C`, not a
digit. -/
theorem head_ctx_nondigit (R : List Char) :
    ∀ c ∈ (ctxLabel ++ R).head?, c.isDigit = false := by
  intro c hc
  have h : ctxLabel ++ R = 'C' :: ("ontext Coherence: ".data ++ R) := rfl
  rw [h] at hc
  simp only [List.head?_cons, Option.mem_some_iff] at hc
  subst hc
  decide

/-- One attempt of the whole pattern at the Reliability label itself, on
a well-delimited block, matches and captures the three numbers. -/
theorem tryAt_full (dr dp dc mid1 mid2 post : List Char)
    (hdr : dr ≠ []) (hdr2 : ∀ c ∈ dr, c.isDigit = true)
    (hdp : dp ≠ []) (hdp2 : ∀ c ∈ dp, c.isDigit = true)
    (hdc : dc ≠ []) (hdc2 : ∀ c ∈ dc, c.isDigit = true)
    (hm1 : 'P' ∉ mid1) (hm1h : ∀ c ∈ mid1.head?, c.isDigit = false)
    (hm2 : 'C' ∉ mid2) (hm2h : ∀ c ∈ mid2.head?, c.isDigit = false)
    (hpost : ∀ c ∈ post.head?, c.isDigit = false) :
    tryAt (relLabel ++ ('0' :: '.' :: (dr ++ (mid1 ++ (perfLabel ++
        ('0' :: '.' :: (dp ++ (mid2 ++ (ctxLabel ++
          ('0' :: '.' :: (dc ++ post))))))))))) =
      some ('0' :: '.' :: dr, '0' :: '.' :: dp, '0' :: '.' :: dc) := by
  have hmc : matchNum ('0' :: '.' :: (dc ++ post)) =
      some ('0' :: '.' :: dc, post) := matchNum_eq dc post hdc hdc2 hpost
  have hfc : findLabeled ctxLabel (mid2 ++ (ctxLabel ++ ('0' :: '.' :: (dc ++ post)))) =
      some ('0' :: '.' :: dc, post) := by
    have h1 : ctxLabel = 'C' :: "ontext Coherence: ".data := rfl
    rw [h1, findLabeled_through 'C' _ mid2 _ hm2, ← h1]
    exact findLabeled_found ctxLabel _ _ (by rw [h1]; simp) hmc
  have hmp : matchNum ('0' :: '.' :: (dp ++ (mid2 ++ (ctxLabel ++
      ('0' :: '.' :: (dc ++ post)))))) =
      some ('0' :: '.' :: dp, mid2 ++ (ctxLabel ++ ('0' :: '.' :: (dc ++ post)))) :=
    matchNum_eq dp _ hdp hdp2
      (head_nondigit_append mid2 _ hm2h (head_ctx_nondigit _))
  have hfp : findLabeled perfLabel (mid1 ++ (perfLabel ++ ('0' :: '.' :: (dp ++
      (mid2 ++ (ctxLabel ++ ('0' :: '.' :: (dc ++ post)))))))) =
      some ('0' :: '.' :: dp, mid2 ++ (ctxLabel ++ ('0' :: '.' :: (dc ++ post)))) := by
    have h1 : perfLabel = 'P' :: "erformance: ".data := rfl
    rw [h1, findLabeled_through 'P' _ mid1 _ hm1, ← h1]
    exact findLabeled_found perfLabel _ _ (by rw [h1]; simp) hmp
  have hmr : matchNum ('0' :: '.' :: (dr ++ (mid1 ++ (perfLabel ++
      ('0' :: '.' :: (dp ++ (mid2 ++ (ctxLabel ++
        ('0' :: '.' :: (dc ++ post)))))))))) =
      some ('0' :: '.' :: dr, mid1 ++ (perfLabel ++ ('0' :: '.' :: (dp ++
        (mid2 ++ (ctxLabel ++ ('0' :: '.' :: (dc ++ post)))))))) :=
    matchNum_eq dr _ hdr hdr2
      (head_nondigit_append mid1 _ hm1h (head_perf_nondigit _))
  rw [tryAt]
  rw [lpre_append relLabel _]
  simp only [if_true, List.drop_left]
  simp only [hmr, hfp, hfc]

/-- C6 as amended: on a text carrying an explicit block whose labels are
written exactly as in the pattern (case-sensitively) and whose scores
have the form `0.<digits>`, `extract_confidence_scores` parses and
returns the three scores exactly as written.  The stretch before the
block avoids the capital `R`, the stretches between the labels avoid the
capitals `P` respectively `C` and do not start with a digit, and nothing
right after a score looks like more digits — otherwise the
leftmost-match, lazy-gap, greedy-digits behaviour would pick different
boundaries. -/
theorem extract_explicit_block (pre mid1 mid2 post dr dp dc : List Char)
    (hdr : dr ≠ []) (hdr2 : ∀ c ∈ dr, c.isDigit = true)
    (hdp : dp ≠ []) (hdp2 : ∀ c ∈ dp, c.isDigit = true)
    (hdc : dc ≠ []) (hdc2 : ∀ c ∈ dc, c.isDigit = true)
    (hpre : 'R' ∉ pre)
    (hm1 : 'P' ∉ mid1) (hm1h : ∀ c ∈ mid1.head?, c.isDigit = false)
    (hm2 : 'C' ∉ mid2) (hm2h : ∀ c ∈ mid2.head?, c.isDigit = false)
    (hpost : ∀ c ∈ post.head?, c.isDigit = false) :
    extract_confidence_scores (String.mk (pre ++ relLabel ++ ('0' :: '.' :: dr)
        ++ mid1 ++ perfLabel ++ ('0' :: '.' :: dp)
        ++ mid2 ++ ctxLabel ++ ('0' :: '.' :: dc) ++ post)) =
      (parseScore ('0' :: '.' :: dr), parseScore ('0' :: '.' :: dp),
        parseScore ('0' :: '.' :: dc)) := by
  have hassoc : pre ++ relLabel ++ ('0' :: '.' :: dr) ++ mid1 ++ perfLabel
      ++ ('0' :: '.' :: dp) ++ mid2 ++ ctxLabel ++ ('0' :: '.' :: dc) ++ post =
      pre ++ (relLabel ++ ('0' :: '.' :: (dr ++ (mid1 ++ (perfLabel ++
        ('0' :: '.' :: (dp ++ (mid2 ++ (ctxLabel ++
          ('0' :: '.' :: (dc ++ post))))))))))) := by
    simp [List.append_assoc]
  have htry := tryAt_full dr dp dc mid1 mid2 post hdr hdr2 hdp hdp2 hdc hdc2
    hm1 hm1h hm2 hm2h hpost
  have hsearch : searchScores (pre ++ relLabel ++ ('0' :: '.' :: dr) ++ mid1
      ++ perfLabel ++ ('0' :: '.' :: dp) ++ mid2 ++ ctxLabel
      ++ ('0' :: '.' :: dc) ++ post) =
      some ('0' :: '.' :: dr, '0' :: '.' :: dp, '0' :: '.' :: dc) := by
    rw [hassoc, searchScores_through _ _ hpre]
    have hrel : relLabel ++ ('0' :: '.' :: (dr ++ (mid1 ++ (perfLabel ++
        ('0' :: '.' :: (dp ++ (mid2 ++ (ctxLabel ++
          ('0' :: '.' :: (dc ++ post)))))))))) =
        'R' :: ("eliability: ".data ++ ('0' :: '.' :: (dr ++ (mid1 ++ (perfLabel ++
          ('0' :: '.' :: (dp ++ (mid2 ++ (ctxLabel ++
            ('0' :: '.' :: (dc ++ post))))))))))) := rfl
    rw [hrel, searchScores, ← hrel, htry]
  rw [extract_confidence_scores]
  rw [show (String.mk (pre ++ relLabel ++ ('0' :: '.' :: dr) ++ mid1 ++ perfLabel
      ++ ('0' :: '.' :: dp) ++ mid2 ++ ctxLabel ++ ('0' :: '.' :: dc) ++ post)).data =
      pre ++ relLabel ++ ('0' :: '.' :: dr) ++ mid1 ++ perfLabel
      ++ ('0' :: '.' :: dp) ++ mid2 ++ ctxLabel ++ ('0' :: '.' :: dc) ++ post from rfl]
  rw [hsearch]

/-- Exercises the amended C6 on the explicit-block example of the
spec. -/
theorem extract_explicit_block_witness :
    extract_confidence_scores
        "Reliability: 0.9 blah Performance: 0.8 blah Context Coherence: 0.7" =
      (parseScore ('0' :: '.' :: ['9']), parseScore ('0' :: '.' :: ['8']),
        parseScore ('0' :: '.' :: ['7'])) := by
  have h := extract_explicit_block [] " blah ".data " blah ".data [] ['9'] ['8'] ['7']
    (by decide) (by decide) (by decide) (by decide) (by decide) (by decide)
    (by decide) (by decide) (by decide) (by decide) (by decide) (by decide)
  exact h

/-- C6 counterexample: the label matching is case-sensitive and the
number shape is `0.<digits>` — on the lowercased example text, and on an
explicit block carrying the score `1.0`, the pattern does not match and
the fallback heuristic answers instead of the written scores. -/
theorem extract_labels_case_sensitive :
    extract_confidence_scores cText1 ≠ ((9 : ℚ)/10, (8 : ℚ)/10, (7 : ℚ)/10) ∧
    extract_confidence_scores cText2 ≠ ((1 : ℚ), (5 : ℚ)/10, (5 : ℚ)/10) := by
  have h1 : searchScores cText1.data = none := by decide
  have h2 : searchScores cText2.data = none := by decide
  have he1 : extract_confidence_scores cText1 = calculate_confidence_scores cText1 := by
    rw [extract_confidence_scores, h1]
  have he2 : extract_confidence_scores cText2 = calculate_confidence_scores cText2 := by
    rw [extract_confidence_scores, h2]
  have hw1 : wordCount cText1 = 9 := by decide
  have hw2 : wordCount cText2 = 9 := by decide
  have hc1 : hasSub "context".data (cText1.data.map Char.toLower) = true := by decide
  have hc2 : hasSub "context".data (cText2.data.map Char.toLower) = true := by decide
  constructor
  · rw [he1]
    simp only [calculate_confidence_scores, hw1, hc1]
    intro hcontra
    rw [Prod.ext_iff] at hcontra
    have := hcontra.1
    norm_num at this
  · rw [he2]
    simp only [calculate_confidence_scores, hw2, hc2]
    intro hcontra
    rw [Prod.ext_iff] at hcontra
    have := hcontra.1
    norm_num at this

end GenAI
